import Mathlib

set_option autoImplicit false

namespace Grapheno

/-!
Shallow embedding of the grapheno consensus node.

The ledger types are translated from `src/lib/src/types/transaction.rs` and the
chain engine from `src/lib/src/types/blockchain.rs`.  The cryptographic layer
(`sha256.rs`, `crypto.rs`), the `Block`/`BlockHeader` type definitions, the
Merkle-root helper and the crate-level constants live in files of the
repository that are not under `src/`; they are modelled from the spec and
marked as such below.  Digests are modelled as natural numbers and the hash
functions are abstracted into a record `HashF`, so that theorems quantify over
the digest assignment and concrete witnesses can pick explicit values.

Stateful Rust methods taking `&mut self` and returning `Result<()>` are
embedded as functions `Blockchain → ... → Blockchain × Option BtcError`: the
returned state is the receiver after the call, so mutations that happen before
an early `return Err(..)` are visible in the result, exactly as in the source.
-/

/-- 256-bit digest, `src/lib/src/sha256.rs` (not under src/): modelled as `Nat`. -/
abbrev Hash := Nat

/-- `Hash::zero()`. -/
def Hash.zero : Hash := 0

/-- `Hash::matches_target`: interpreted as an unsigned integer, `H ≤ T`. -/
def Hash.matchesTarget (h t : Nat) : Bool := decide (h ≤ t)

/-- `TransactionOutput` from `src/lib/src/types/transaction.rs`; the 128-bit
UUID is modelled as a `Nat`, the public-key-free address as a `String`. -/
structure TransactionOutput where
  value : Nat
  unique_id : Nat
  address : String
deriving DecidableEq

/-- `TransactionInput` from `src/lib/src/types/transaction.rs`; public key and
signature are opaque to the chain engine and modelled as numbers. -/
structure TransactionInput where
  prev_transaction_output_hash : Hash
  public_key : Nat
  signature : Nat
deriving DecidableEq

/-- `Transaction` from `src/lib/src/types/transaction.rs`. -/
structure Transaction where
  inputs : List TransactionInput
  outputs : List TransactionOutput
deriving DecidableEq

/-- Modelled from the spec: `BlockHeader` (§3); its defining file is not under
`src/`.  `timestamp` is UTC seconds as an integer, `target` an unsigned
256-bit integer modelled as `Nat`. -/
structure BlockHeader where
  timestamp : Int
  nonce : Nat
  prev_block_hash : Hash
  merkle_root : Hash
  target : Nat
deriving DecidableEq

/-- Modelled from the spec: `Block` (§3); its defining file is not under
`src/`. -/
structure Block where
  header : BlockHeader
  transactions : List Transaction
deriving DecidableEq

/-- Modelled from the spec: the SHA-256-based digest assignment
(`src/lib/src/sha256.rs`, `util.rs`, `crypto.rs` are not under `src/`).
`txHash`, `outHash` and `headerHash` stand for `Hash::hash` of the canonical
serialisation of each value, `merkleRoot` for `MerkleRoot::calculate`, and
`sigVerify` for `signature.verify(prev_output_hash, public_key)`. -/
structure HashF where
  txHash : Transaction → Hash
  outHash : TransactionOutput → Hash
  headerHash : BlockHeader → Hash
  merkleRoot : List Transaction → Hash
  sigVerify : TransactionInput → Bool

/-- Modelled from the spec: `Block::hash`; the spec's chain invariant reads
`blocks[i].header.prev_block_hash = H(blocks[i-1].header)`, so a block's hash
is its header's hash. -/
def Block.hash (hf : HashF) (b : Block) : Hash := hf.headerHash b.header

/-- `BtcError` from the error module (not under `src/`), modelled from the
spec's error taxonomy (§7). -/
inductive BtcError where
  | InvalidBlock
  | InvalidMerkleRoot
  | InvalidTransaction
deriving DecidableEq

/-- Modelled from the spec: build-time constant `DIFFICULTY_UPDATE_INTERVAL`
(`src/lib/src/lib.rs` is not under `src/`); spec scenario 4 uses 50. -/
def DIFFICULTY_UPDATE_INTERVAL : Nat := 50

/-- Modelled from the spec: build-time constant `IDEAL_BLOCK_TIME` in seconds. -/
def IDEAL_BLOCK_TIME : Nat := 10

/-- Modelled from the spec: `MIN_TARGET`, the easiest (largest) permissible
target, an unsigned 256-bit integer. -/
def MIN_TARGET : Nat := 2 ^ 240 - 1

/-- Modelled from the spec: build-time constant `INITIAL_REWARD` in whole coins. -/
def INITIAL_REWARD : Nat := 50

/-- Modelled from the spec: build-time constant `HALVING_INTERVAL` in blocks. -/
def HALVING_INTERVAL : Nat := 210

/-- Modelled from the spec: build-time constant `BLOCK_TRANSACTION_CAP`. -/
def BLOCK_TRANSACTION_CAP : Nat := 20

/-! ### The UTXO map

`utxos: HashMap<Hash, (bool, TransactionOutput)>` is modelled as an
association list with the usual map operations; the embedded operations
below mirror `HashMap::get`, `contains_key`, `insert`, `remove` and
`entry(..).and_modify(..)`. -/

/-- Map payload of the `utxos` field. -/
abbrev Utxos := List (Hash × (Bool × TransactionOutput))

/-- `HashMap::get`. -/
def getU : Utxos → Hash → Option (Bool × TransactionOutput)
  | [], _ => none
  | e :: rest, k => if e.1 = k then some e.2 else getU rest k

/-- `HashMap::contains_key`. -/
def containsU (m : Utxos) (k : Hash) : Bool := (getU m k).isSome

/-- `HashMap::insert`: replace the binding if the key is present, else add it. -/
def insertU : Utxos → Hash → (Bool × TransactionOutput) → Utxos
  | [], k, v => [(k, v)]
  | e :: rest, k, v => if e.1 = k then (k, v) :: rest else e :: insertU rest k v

/-- `HashMap::remove`. -/
def removeU : Utxos → Hash → Utxos
  | [], _ => []
  | e :: rest, k => if e.1 = k then rest else e :: removeU rest k

/-- `HashMap::entry(k).and_modify(f)`: modify the value if the key is present. -/
def modifyU : Utxos → Hash → ((Bool × TransactionOutput) → (Bool × TransactionOutput)) → Utxos
  | [], _, _ => []
  | e :: rest, k, f => if e.1 = k then (k, f e.2) :: rest else e :: modifyU rest k f

/-- The chain state, `Blockchain` from `src/lib/src/types/blockchain.rs`.
Mempool entry times are UTC seconds as integers. -/
structure Blockchain where
  utxos : Utxos
  target : Nat
  blocks : List Block
  mempool : List (Int × Transaction)
deriving DecidableEq

/-- `Blockchain::new`. -/
def Blockchain.new : Blockchain :=
  { utxos := [], target := MIN_TARGET, blocks := [], mempool := [] }

/-- `Blockchain::block_height`. -/
def Blockchain.blockHeight (st : Blockchain) : Nat := st.blocks.length

/-- `Blockchain::calculate_block_reward` (the formula also appears in spec
§4.1.4): `(INITIAL_REWARD * 10^8) >> (height / HALVING_INTERVAL)`. -/
def calculateBlockReward (height : Nat) : Nat :=
  (INITIAL_REWARD * 10 ^ 8) >>> (height / HALVING_INTERVAL)

/-- Sum of the output values of a transaction. -/
def outputsValue (outs : List TransactionOutput) : Nat :=
  outs.foldl (fun a o => a + o.value) 0

/-- Sum of the values of the UTXOs referenced by the given inputs, looking
each key up in the map.  The source unwraps the lookup with
`expect("BUG: impossible")`; at every call site the keys were checked to be
present, so the `getD 0` default is unreachable there. -/
def inputsValue (m : Utxos) (ins : List TransactionInput) : Nat :=
  ins.foldl (fun a i => a + ((getU m i.prev_transaction_output_hash).map (fun p => p.2.value)).getD 0) 0

/-- The miner fee of a transaction: `Σ inputs.value − Σ outputs.value`
(`u64` subtraction in the source, `Nat` truncated subtraction here; entries
in the mempool always satisfy `inputs ≥ outputs`). -/
def minerFee (m : Utxos) (tx : Transaction) : Nat :=
  inputsValue m tx.inputs - outputsValue tx.outputs

/-! ### Transaction verification inside a block -/

/-- Modelled from the spec: `Block::verify_transactions` (§4.1.4); its
defining file is not under `src/`.  Requires exactly one coinbase at index 0,
every non-coinbase input referencing an existing UTXO used at most once
across the block with a valid signature, per-transaction value balance, and
the coinbase paying at most reward plus miner fees. -/
def verifyTransactions (hf : HashF) (height : Nat) (m : Utxos) (txs : List Transaction) : Bool :=
  match txs with
  | [] => false
  | coinbase :: rest =>
    let prevs := (rest.map (fun tx => tx.inputs.map (fun i => i.prev_transaction_output_hash))).flatten
    coinbase.inputs.isEmpty
      && rest.all (fun tx => !tx.inputs.isEmpty)
      && decide prevs.Nodup
      && prevs.all (containsU m)
      && rest.all (fun tx => tx.inputs.all hf.sigVerify
            && outputsValue tx.outputs ≤ inputsValue m tx.inputs)
      && outputsValue coinbase.outputs
          ≤ calculateBlockReward height
            + (rest.foldl (fun a tx => a + minerFee m tx) 0)

/-! ### `Blockchain::add_block` -/

/-- `Blockchain::try_adjust_target`.  The `BigDecimal` computation
`target * (diff / ideal)` truncated at the decimal point equals floor
division here because `ideal = IDEAL_BLOCK_TIME * DIFFICULTY_UPDATE_INTERVAL
= 500` has only 2 and 5 as prime factors, so the decimal quotient is exact;
a negative elapsed time makes the source panic in `U256::from_str_radix` and
is unreachable through `add_block` (timestamps strictly increase), modelled
with `Int.toNat`. -/
def Blockchain.tryAdjustTarget (st : Blockchain) : Blockchain :=
  if st.blocks.isEmpty then st
  else if st.blockHeight % DIFFICULTY_UPDATE_INTERVAL ≠ 0 then st
  else
    let startTime := (st.blocks.getD (st.blockHeight - DIFFICULTY_UPDATE_INTERVAL)
      { header := { timestamp := 0, nonce := 0, prev_block_hash := 0, merkle_root := 0, target := 0 },
        transactions := [] }).header.timestamp
    let endTime := ((st.blocks.getLast?).getD
      { header := { timestamp := 0, nonce := 0, prev_block_hash := 0, merkle_root := 0, target := 0 },
        transactions := [] }).header.timestamp
    let timeDiffSeconds : Int := endTime - startTime
    let targetSeconds : Nat := IDEAL_BLOCK_TIME * DIFFICULTY_UPDATE_INTERVAL
    let newTarget : Nat := st.target * timeDiffSeconds.toNat / targetSeconds
    let newTarget2 : Nat :=
      if newTarget < st.target / 4 then st.target / 4
      else if newTarget > st.target * 4 then st.target * 4
      else newTarget
    { st with target := min newTarget2 MIN_TARGET }

/-- The success path of `add_block`: append the block, drop every mempool
transaction whose hash appears in the block, then `try_adjust_target`. -/
def Blockchain.acceptBlock (hf : HashF) (st : Blockchain) (block : Block) : Blockchain :=
  let blockTxHashes := block.transactions.map hf.txHash
  Blockchain.tryAdjustTarget
    { st with
      mempool := st.mempool.filter (fun e => !(blockTxHashes.contains (hf.txHash e.2)))
      blocks := st.blocks ++ [block] }

/-- `Blockchain::add_block`.  Returns the state after the call together with
the error, if any; all checks precede every mutation in the source, so the
state is returned unchanged on error. -/
def Blockchain.addBlock (hf : HashF) (st : Blockchain) (block : Block) : Blockchain × Option BtcError :=
  match st.blocks.getLast? with
  | none =>
    if block.header.prev_block_hash ≠ Hash.zero then (st, some .InvalidBlock)
    else (st.acceptBlock hf block, none)
  | some lastBlock =>
    if block.header.prev_block_hash ≠ lastBlock.hash hf then (st, some .InvalidBlock)
    else if !Hash.matchesTarget (hf.headerHash block.header) block.header.target then
      (st, some .InvalidBlock)
    else if hf.merkleRoot block.transactions ≠ block.header.merkle_root then
      (st, some .InvalidMerkleRoot)
    else if block.header.timestamp ≤ lastBlock.header.timestamp then (st, some .InvalidBlock)
    else if !verifyTransactions hf st.blockHeight st.utxos block.transactions then
      (st, some .InvalidTransaction)
    else (st.acceptBlock hf block, none)

/-! ### `Blockchain::rebuild_utxos` -/

/-- One transaction step of `rebuild_utxos`: remove every input-referenced
key, then insert each output under the owning transaction's hash. -/
def processTxUtxos (hf : HashF) (m : Utxos) (tx : Transaction) : Utxos :=
  let m1 := tx.inputs.foldl (fun a i => removeU a i.prev_transaction_output_hash) m
  tx.outputs.foldl (fun a o => insertU a (hf.txHash tx) (false, o)) m1

/-- `Blockchain::rebuild_utxos`: replay all blocks in order over the current
`utxos` map (the source does not clear the map first). -/
def Blockchain.rebuildUtxos (hf : HashF) (st : Blockchain) : Blockchain :=
  { st with
    utxos := st.blocks.foldl (fun m b => b.transactions.foldl (processTxUtxos hf) m) st.utxos }

/-! ### `Blockchain::add_to_mempool` -/

/-- The first loop of `add_to_mempool`: every input must reference an
existing UTXO and no two inputs may reference the same UTXO. -/
def checkInputsAux (m : Utxos) : List TransactionInput → List Hash → Bool
  | [], _ => true
  | i :: rest, seen =>
    containsU m i.prev_transaction_output_hash
      && !(seen.contains i.prev_transaction_output_hash)
      && checkInputsAux m rest (i.prev_transaction_output_hash :: seen)

/-- The conflict-resolution step of `add_to_mempool` for one input: if the
referenced UTXO is marked, search the mempool for an entry one of whose
OUTPUTS hashes to the referenced key; if found, unmark all UTXOs referenced
by that entry's inputs and remove the entry, otherwise just unmark the
referenced UTXO. -/
def conflictStep (hf : HashF) (st : Blockchain) (input : TransactionInput) : Blockchain :=
  match getU st.utxos input.prev_transaction_output_hash with
  | some (true, _) =>
    match st.mempool.findIdx?
        (fun e => e.2.outputs.any (fun o => hf.outHash o = input.prev_transaction_output_hash)) with
    | some idx =>
      let rtx := (st.mempool.getD idx (0, { inputs := [], outputs := [] })).2
      { st with
        utxos := rtx.inputs.foldl
          (fun a i => modifyU a i.prev_transaction_output_hash (fun p => (false, p.2))) st.utxos
        mempool := st.mempool.eraseIdx idx }
    | none =>
      { st with
        utxos := modifyU st.utxos input.prev_transaction_output_hash (fun p => (false, p.2)) }
  | _ => st

/-- Stable insertion into a list sorted in non-decreasing key order. -/
def insertByKey (key : Int × Transaction → Nat) (x : Int × Transaction) :
    List (Int × Transaction) → List (Int × Transaction)
  | [] => [x]
  | y :: ys => if key x ≤ key y then x :: y :: ys else y :: insertByKey key x ys

/-- `Vec::sort_by_key`: a stable sort in non-decreasing key order (any two
stable sorts agree, so insertion sort models it exactly). -/
def sortByKey (key : Int × Transaction → Nat) : List (Int × Transaction) → List (Int × Transaction)
  | [] => []
  | x :: xs => insertByKey key x (sortByKey key xs)

/-- `Blockchain::add_to_mempool`.  Returns the state after the call together
with the error, if any; the conflict-resolution loop mutates the state
before the value-balance check, so a rejected transaction can leave a
changed state behind, exactly as in the source. -/
def Blockchain.addToMempool (hf : HashF) (now : Int) (st : Blockchain) (tx : Transaction) :
    Blockchain × Option BtcError :=
  if !checkInputsAux st.utxos tx.inputs [] then (st, some .InvalidTransaction)
  else
    let st1 := tx.inputs.foldl (conflictStep hf) st
    let allInputs := inputsValue st1.utxos tx.inputs
    let allOutputs := outputsValue tx.outputs
    if allInputs < allOutputs then (st1, some .InvalidTransaction)
    else
      let utxos2 := tx.inputs.foldl
        (fun a i => modifyU a i.prev_transaction_output_hash (fun p => (true, p.2))) st1.utxos
      let mempool2 := st1.mempool ++ [(now, tx)]
      let mempool3 := sortByKey (fun e => minerFee utxos2 e.2) mempool2
      ({ st1 with utxos := utxos2, mempool := mempool3 }, none)

/-- Spec-side predicate: a list of fees in non-increasing order (the spec's
mempool ordering invariant). -/
def nonIncreasingList : List Nat → Bool
  | [] => true
  | [_] => true
  | a :: b :: rest => b ≤ a && nonIncreasingList (b :: rest)

/-- The miner fees of the mempool entries of a chain state, in mempool order,
computed against the state's UTXO map as `add_to_mempool` does. -/
def mempoolFees (st : Blockchain) : List Nat :=
  st.mempool.map (fun e => minerFee st.utxos e.2)

/-! ### Bootstrap consensus, `src/node/src/util.rs` -/

/-- One step of grouping the `(node, claimed length)` responses by length
(the `HashMap<i32, Vec<String>>` built in `calculate_consensus_chain_length`). -/
def addResponse (gs : List (Int × List String)) (r : String × Int) : List (Int × List String) :=
  match gs with
  | [] => [(r.2, [r.1])]
  | g :: rest => if g.1 = r.2 then (g.1, g.2 ++ [r.1]) :: rest else g :: addResponse rest r

/-- Group responses by claimed chain length, keeping first-appearance order. -/
def groupResponses (rs : List (String × Int)) : List (Int × List String) :=
  rs.foldl addResponse []

/-- `calculate_consensus_chain_length` from `src/node/src/util.rs`.  The Rust
`HashMap` iteration order is arbitrary, but at most one group can reach the
majority threshold `⌊n/2⌋ + 1` (group sizes sum to `n`), so searching the
groups in any order gives the same result.  The source's fallback for the
no-majority case only tracks `max_group_size` and never assigns `consensus`,
so `consensus.ok_or_else(..)` fails there; this embedding reproduces that. -/
def calculateConsensusChainLength (responses : List (String × Int)) :
    Except String (Nat × List String) :=
  if responses.isEmpty then .error "no node responses received"
  else
    let majorityThreshold := responses.length / 2 + 1
    let groups := groupResponses responses
    match groups.find? (fun g => majorityThreshold ≤ g.2.length) with
    | some g =>
      if g.1 < 0 then .error "consensus chain length is negative"
      else .ok (g.1.toNat, g.2)
    | none => .error "failed to determine consensus chain length"

/-! ### Persistent store, `src/node/src/database.rs`

The sled keyspace is modelled by its contents: the dense `block:<i>` prefix
as a list, the two meta entries, and the payload entries reachable from the
two index lists (`meta:utxo_keys`, `meta:mempool_keys`), which are the only
entries `get_all_utxos` and `get_all_mempool_txs` read. -/

structure BlockchainDB where
  blocks : List Block
  block_count : Nat
  targetMeta : Nat
  utxoEntries : Utxos
  mempoolEntries : List (Int × Transaction)
deriving DecidableEq

/-- A freshly created (empty) database. -/
def BlockchainDB.empty : BlockchainDB :=
  { blocks := [], block_count := 0, targetMeta := 0, utxoEntries := [], mempoolEntries := [] }

/-- `BlockchainDB::save_blockchain`: write every block under its index
(overwriting the previously stored prefix), the block count, the target, and
rewrite the UTXO and mempool payloads and index lists from the in-memory
chain. -/
def BlockchainDB.saveBlockchain (db : BlockchainDB) (st : Blockchain) : BlockchainDB :=
  { blocks := st.blocks ++ db.blocks.drop st.blocks.length
    block_count := st.blockHeight
    targetMeta := st.target
    utxoEntries := st.utxos
    mempoolEntries := st.mempool }

/-- The block-replay loop of `load_blockchain`: feed the stored blocks into
`add_block` in order, stopping at the first error. -/
def addBlocksFold (hf : HashF) : Blockchain → List Block → Blockchain × Option BtcError
  | st, [] => (st, none)
  | st, b :: rest =>
    match st.addBlock hf b with
    | (st1, none) => addBlocksFold hf st1 rest
    | (st1, some e) => (st1, some e)

/-- `BlockchainDB::load_blockchain`: replay all stored blocks through
`add_block` on a fresh chain, then replay the stored mempool transactions
through `add_to_mempool`, discarding individual failures (`.ok()`); `now` is
the entry time stamped on the replayed mempool entries. -/
def BlockchainDB.loadBlockchain (hf : HashF) (now : Int) (db : BlockchainDB) :
    Except BtcError Blockchain :=
  match addBlocksFold hf Blockchain.new db.blocks with
  | (_, some e) => .error e
  | (st, none) =>
    .ok (db.mempoolEntries.foldl (fun s e => (s.addToMempool hf now e.2).1) st)

/-! ### Wire messages and the dispatcher, `src/node/src/handler.rs` -/

/-- Modelled from the spec: the wire `Message` type (§4.3); `btclib::network`
is not under `src/`.  Payload types follow the dispatcher's usage, with the
wallet address key modelled as a `String`. -/
inductive Message where
  | UTXOs (us : List (TransactionOutput × Bool))
  | Template (b : Block)
  | Difference (d : Int)
  | TemplateValidity (ok : Bool)
  | NodeList (ns : List String)
  | AllBlocks (bs : List Block)
  | FetchBlock (height : Nat)
  | FetchAllBlocks
  | DiscoverNodes
  | AskDifference (height : Int)
  | FetchUTXOs (key : String)
  | NewBlock (b : Block)
  | NewTransaction (t : Transaction)
  | ValidateTemplate (b : Block)
  | SubmitTemplate (b : Block)
  | SubmitTransaction (t : Transaction)
  | FetchTemplate (key : String)
deriving DecidableEq

/-- The guard of the first arm of the dispatcher match: `UTXOs`, `Template`,
`Difference`, `TemplateValidity`, `NodeList` and `AllBlocks` are responses a
node never requests. -/
def Message.isUnsolicitedResponse : Message → Bool
  | .UTXOs _ => true
  | .Template _ => true
  | .Difference _ => true
  | .TemplateValidity _ => true
  | .NodeList _ => true
  | .AllBlocks _ => true
  | _ => false

/-- `get_last_block_hash` from `src/node/src/handler.rs`. -/
def getLastBlockHash (hf : HashF) (st : Blockchain) : Hash :=
  ((st.blocks.getLast?).map (Block.hash hf)).getD Hash.zero

/-- Modelled from the spec: `Block::calculate_miner_fees` (§4.1.4, §4.1.7);
its defining file is not under `src/`.  Sums input value minus output value
over the non-coinbase transactions, failing if an input references a missing
UTXO. -/
def calculateMinerFees (m : Utxos) (txs : List Transaction) : Option Nat :=
  if txs.all (fun tx => tx.inputs.all (fun i => containsU m i.prev_transaction_output_hash)) then
    some (txs.foldl (fun a tx => if tx.inputs.isEmpty then a else a + minerFee m tx) 0)
  else none

/-- The observable effect of one iteration of `dispatcher_loop` on one
message: the chain state afterwards, the reply sent back to the originating
peer, whether the newly-accepted gossip flag was set, a directly broadcast
message, and whether the dispatcher closed the peer connection — no arm of
the loop closes it; every arm ends the iteration with the connection open. -/
structure DispatchResult where
  chain : Blockchain
  reply : Option Message
  gossip : Bool
  broadcast : Option Message
  closed : Bool
deriving DecidableEq

/-- The message match of `dispatcher_loop` from `src/node/src/handler.rs`.
`now` models `Utc::now()`, `freshId` the fresh UUID drawn for the template
coinbase, and `peers` the peer table snapshot used by `DiscoverNodes`. -/
def dispatchMessage (hf : HashF) (now : Int) (freshId : Nat) (peers : List String)
    (st : Blockchain) : Message → DispatchResult
  | .UTXOs _ => ⟨st, none, false, none, false⟩
  | .Template _ => ⟨st, none, false, none, false⟩
  | .Difference _ => ⟨st, none, false, none, false⟩
  | .TemplateValidity _ => ⟨st, none, false, none, false⟩
  | .NodeList _ => ⟨st, none, false, none, false⟩
  | .AllBlocks _ => ⟨st, none, false, none, false⟩
  | .FetchBlock height =>
    match st.blocks[height]? with
    | some b => ⟨st, some (.NewBlock b), false, none, false⟩
    | none => ⟨st, none, false, none, false⟩
  | .FetchAllBlocks => ⟨st, some (.AllBlocks st.blocks), false, none, false⟩
  | .DiscoverNodes => ⟨st, some (.NodeList peers), false, none, false⟩
  | .AskDifference height =>
    ⟨st, some (.Difference ((st.blockHeight : Int) - height)), false, none, false⟩
  | .FetchUTXOs key =>
    let us := (st.utxos.filter (fun e => e.2.2.address == key)).map (fun e => (e.2.2, e.2.1))
    ⟨st, some (.UTXOs us), false, none, false⟩
  | .NewBlock b =>
    match st.addBlock hf b with
    | (st1, none) => ⟨st1, none, true, none, false⟩
    | (st1, some _) => ⟨st1, none, false, none, false⟩
  | .NewTransaction t =>
    match st.addToMempool hf now t with
    | (st1, none) => ⟨st1, none, true, none, false⟩
    | (st1, some _) => ⟨st1, none, false, none, false⟩
  | .ValidateTemplate b =>
    ⟨st, some (.TemplateValidity (b.header.prev_block_hash == getLastBlockHash hf st)),
      false, none, false⟩
  | .SubmitTemplate b =>
    match st.addBlock hf b with
    | (st1, none) => ⟨st1.rebuildUtxos hf, none, false, some (.NewBlock b), false⟩
    | (st1, some _) => ⟨st1, none, false, none, false⟩
  | .SubmitTransaction t =>
    match st.addToMempool hf now t with
    | (st1, none) => ⟨st1, none, false, some (.NewTransaction t), false⟩
    | (st1, some _) => ⟨st1, none, false, none, false⟩
  | .FetchTemplate key =>
    let mempoolTxs := (st.mempool.take BLOCK_TRANSACTION_CAP).map (fun e => e.2)
    let coinbase : Transaction :=
      { inputs := [], outputs := [{ value := 0, unique_id := freshId, address := key }] }
    match calculateMinerFees st.utxos (coinbase :: mempoolTxs) with
    | none => ⟨st, none, false, none, false⟩
    | some fees =>
      let reward := calculateBlockReward st.blockHeight
      let coinbase2 : Transaction :=
        { inputs := [], outputs := [{ value := reward + fees, unique_id := freshId, address := key }] }
      let txs2 := coinbase2 :: mempoolTxs
      let b : Block :=
        { header :=
            { timestamp := now, nonce := 0, prev_block_hash := getLastBlockHash hf st,
              merkle_root := hf.merkleRoot txs2, target := st.target },
          transactions := txs2 }
      ⟨st, some (.Template b), false, none, false⟩

/-- The keys of a UTXO map; a Rust `HashMap` binds each key at most once,
expressed here as `(keysU m).Nodup`. -/
def keysU (m : Utxos) : List Hash := m.map Prod.fst

/-- The committed transactions of a chain, in block order. -/
def Blockchain.committedTxs (st : Blockchain) : List Transaction :=
  st.blocks.foldr (fun b acc => b.transactions ++ acc) []

/-- The elapsed seconds over the last retarget interval, as read by
`try_adjust_target`: last block timestamp minus the timestamp of the block
`DIFFICULTY_UPDATE_INTERVAL` places before the end. -/
def Blockchain.retargetElapsed (st : Blockchain) : Int :=
  ((st.blocks.getLast?).getD
      { header := { timestamp := 0, nonce := 0, prev_block_hash := 0, merkle_root := 0, target := 0 },
        transactions := [] }).header.timestamp
    - (st.blocks.getD (st.blockHeight - DIFFICULTY_UPDATE_INTERVAL)
        { header := { timestamp := 0, nonce := 0, prev_block_hash := 0, merkle_root := 0, target := 0 },
          transactions := [] }).header.timestamp

/-! ### Concrete instances used by witnesses and counterexamples -/

/-- A committed output worth 50, paid to address `A`. -/
def outU : TransactionOutput := { value := 50, unique_id := 1, address := "A" }

/-- First mempool spend of `outU`. -/
def o1 : TransactionOutput := { value := 45, unique_id := 2, address := "B" }

/-- Conflicting second spend of `outU`. -/
def o2 : TransactionOutput := { value := 40, unique_id := 3, address := "C" }

/-- Overspending output (60 > 50). -/
def oBad : TransactionOutput := { value := 60, unique_id := 4, address := "D" }

/-- Committed outputs for the fee-ordering scenario. -/
def oV1 : TransactionOutput := { value := 10, unique_id := 5, address := "E" }

/-- Committed outputs for the fee-ordering scenario. -/
def oV2 : TransactionOutput := { value := 20, unique_id := 6, address := "F" }

/-- Spend of `oV1` leaving fee 1. -/
def oA : TransactionOutput := { value := 9, unique_id := 7, address := "G" }

/-- Spend of `oV2` leaving fee 2. -/
def oB : TransactionOutput := { value := 18, unique_id := 8, address := "H" }

/-- First output of the two-output transaction of the rebuild scenario. -/
def oA3 : TransactionOutput := { value := 11, unique_id := 9, address := "I" }

/-- Second output of the two-output transaction of the rebuild scenario. -/
def oB3 : TransactionOutput := { value := 12, unique_id := 10, address := "J" }

/-- Coinbase output of the candidate block of the add-block scenario. -/
def oCb : TransactionOutput := { value := 3, unique_id := 11, address := "M" }

/-- The coinbase-style transaction creating `outU`. -/
def txU : Transaction := { inputs := [], outputs := [outU] }

/-- Mempool transaction consuming `outU` (fee 5). -/
def tx1 : Transaction :=
  { inputs := [{ prev_transaction_output_hash := 500, public_key := 1, signature := 1 }],
    outputs := [o1] }

/-- Conflicting mempool transaction also consuming `outU` (fee 10). -/
def tx2 : Transaction :=
  { inputs := [{ prev_transaction_output_hash := 500, public_key := 2, signature := 2 }],
    outputs := [o2] }

/-- Overspending transaction consuming `outU` (outputs 60 > inputs 50). -/
def txBad : Transaction :=
  { inputs := [{ prev_transaction_output_hash := 500, public_key := 3, signature := 3 }],
    outputs := [oBad] }

/-- Creator of `oV1`. -/
def txV1 : Transaction := { inputs := [], outputs := [oV1] }

/-- Creator of `oV2`. -/
def txV2 : Transaction := { inputs := [], outputs := [oV2] }

/-- Mempool transaction with miner fee 1. -/
def txA : Transaction :=
  { inputs := [{ prev_transaction_output_hash := 510, public_key := 4, signature := 4 }],
    outputs := [oA] }

/-- Mempool transaction with miner fee 2. -/
def txB : Transaction :=
  { inputs := [{ prev_transaction_output_hash := 511, public_key := 5, signature := 5 }],
    outputs := [oB] }

/-- A committed transaction with two outputs, for the rebuild scenario. -/
def t2o : Transaction := { inputs := [], outputs := [oA3, oB3] }

/-- Coinbase of the candidate non-genesis block. -/
def cb1 : Transaction := { inputs := [], outputs := [oCb] }

/-- A transaction referencing a nonexistent UTXO. -/
def txMissing : Transaction :=
  { inputs := [{ prev_transaction_output_hash := 777, public_key := 9, signature := 9 }],
    outputs := [] }

/-- A concrete digest assignment for the scenario objects: distinct small
numbers per transaction, output and header, no collisions among the values
in play. -/
def hfC : HashF :=
  { txHash := fun tx =>
      if tx = txU then 500 else if tx = tx1 then 501 else if tx = tx2 then 502
      else if tx = txBad then 503 else if tx = txV1 then 510 else if tx = txV2 then 511
      else if tx = txA then 512 else if tx = txB then 513 else if tx = t2o then 520
      else 999
    outHash := fun o =>
      if o = outU then 600 else if o = o1 then 601 else if o = o2 then 602
      else if o = oBad then 603 else if o = oV1 then 604 else if o = oV2 then 605
      else if o = oA then 606 else if o = oB then 607 else if o = oA3 then 608
      else if o = oB3 then 609 else 998
    headerHash := fun h => 700 + h.nonce
    merkleRoot := fun txs => 800 + txs.length
    sigVerify := fun _ => true }

/-- Genesis block holding `txU`; its `merkle_root` field (12345) deliberately
disagrees with `hfC.merkleRoot [txU] = 801`. -/
def B0 : Block :=
  { header := { timestamp := 5, nonce := 0, prev_block_hash := 0, merkle_root := 12345, target := 0 },
    transactions := [txU] }

/-- Candidate non-genesis block on top of `B0`, carrying only the coinbase
`cb1`; satisfies every non-genesis check under `hfC`. -/
def B1 : Block :=
  { header := { timestamp := 6, nonce := 1, prev_block_hash := 700, merkle_root := 801, target := 701 },
    transactions := [cb1] }

/-- Genesis block for the fee-ordering scenario. -/
def BV : Block :=
  { header := { timestamp := 5, nonce := 2, prev_block_hash := 0, merkle_root := 0, target := 0 },
    transactions := [txV1, txV2] }

/-- Genesis block for the rebuild scenario. -/
def B3 : Block :=
  { header := { timestamp := 5, nonce := 3, prev_block_hash := 0, merkle_root := 0, target := 0 },
    transactions := [t2o] }

/-- Chain holding just `B0`, with `utxos` rebuilt: one unspent entry
`(500, (false, outU))`. -/
def stU : Blockchain := ((Blockchain.new.addBlock hfC B0).1).rebuildUtxos hfC

/-- `stU` after `add_to_mempool tx1`: `tx1` pends in the mempool and the UTXO
500 it consumes is marked. -/
def stM1 : Blockchain := (stU.addToMempool hfC 10 tx1).1

/-- Chain holding just `BV`, with `utxos` rebuilt. -/
def stV : Blockchain := ((Blockchain.new.addBlock hfC BV).1).rebuildUtxos hfC

/-- `stV` after adding `txB` (fee 2). -/
def stV1 : Blockchain := (stV.addToMempool hfC 10 txB).1

/-- Chain holding just `B3`. -/
def stC3 : Blockchain := (Blockchain.new.addBlock hfC B3).1

/-- Chain holding just `B0` without rebuilt UTXOs (the dispatcher scenarios). -/
def stG : Blockchain := (Blockchain.new.addBlock hfC B0).1

/-- A block with empty payload and timestamp `10·i`, for the retarget witness. -/
def mkSimpleBlock (i : Nat) : Block :=
  { header := { timestamp := 10 * i, nonce := i, prev_block_hash := 0, merkle_root := 0, target := 0 },
    transactions := [] }

/-- A 50-block chain whose last interval took 490 seconds (ideal is 500). -/
def stW : Blockchain :=
  { utxos := [], target := MIN_TARGET, blocks := (List.range 50).map mkSimpleBlock, mempool := [] }

/-- The UTXO keys referenced by a transaction's inputs. -/
def inputKeys (tx : Transaction) : List Hash :=
  tx.inputs.map (fun i => i.prev_transaction_output_hash)

/-- `true` when no UTXO referenced by the input is currently marked; the
scrutinee mirrors the match in `conflictStep`. -/
def notMarkedIn (m : Utxos) (i : TransactionInput) : Bool :=
  match getU m i.prev_transaction_output_hash with
  | some (true, _) => false
  | _ => true

/-!
## Theorems

One theorem per claim of the specification audit, with shared helper lemmas.
-/

/-- C1: in the state `stM1` the mempool holds exactly `tx1`, which consumes
the marked UTXO 500; submitting the valid conflicting `tx2` (also consuming
500) succeeds but leaves `tx1` in the mempool next to `tx2` — the conflict
search inspects mempool OUTPUTS instead of inputs, never finds the consumer,
and only unmarks the UTXO.  This refutes the claim that the conflicting
mempool entry is removed. -/
theorem claim1_conflict_search_bug :
    (stM1.mempool.map Prod.snd = [tx1] ∧ getU stM1.utxos 500 = some (true, outU))
    ∧ (stM1.addToMempool hfC 20 tx2).2 = none
    ∧ (stM1.addToMempool hfC 20 tx2).1.mempool.map Prod.snd = [tx1, tx2]
    ∧ getU (stM1.addToMempool hfC 20 tx2).1.utxos 500 = some (true, outU) := by decide

/-- C4: after two successful `add_to_mempool` calls the mempool fees read
`[1, 2]` — `Vec::sort_by_key` sorts in ascending key order, so the mempool
is sorted by NON-DECREASING fee, refuting the non-increasing ordering. -/
theorem claim4_fee_order_bug :
    (stV1.addToMempool hfC 20 txA).2 = none
    ∧ mempoolFees (stV1.addToMempool hfC 20 txA).1 = [1, 2]
    ∧ nonIncreasingList (mempoolFees (stV1.addToMempool hfC 20 txA).1) = false := by decide

/-- C6 counterexample: submitting the overspending `txBad` against `stM1` is
rejected with `InvalidTransaction`, yet the state changed: the conflict loop
already unmarked UTXO 500 before the value check failed. -/
theorem claim6_rollback_counterexample :
    (stM1.addToMempool hfC 30 txBad).2 = some BtcError.InvalidTransaction
    ∧ (stM1.addToMempool hfC 30 txBad).1 ≠ stM1
    ∧ getU (stM1.addToMempool hfC 30 txBad).1.utxos 500 = some (false, outU)
    ∧ getU stM1.utxos 500 = some (true, outU) := by decide

/-- C7: saving the one-block chain `stU` (whose UTXO map holds the entry for
key 500) and loading it back yields the same blocks, target and mempool but
an EMPTY UTXO map: `load_blockchain` replays blocks through `add_block`,
which never touches `utxos`, and neither reads the stored UTXO entries nor
calls `rebuild_utxos`. -/
theorem claim7_load_drops_utxos :
    ((BlockchainDB.empty.saveBlockchain stU).loadBlockchain hfC 0).toOption
        = some { stU with utxos := [] }
    ∧ stU.utxos = [(500, (false, outU))] := by decide

/-- C8: with responses `[("a", 1), ("b", 2)]` no length reaches the majority
threshold 2, and the source's fallback never assigns `consensus`, so the
function errors instead of returning the largest group's length. -/
theorem claim8_no_majority_errors :
    calculateConsensusChainLength [("a", 1), ("b", 2)]
      = Except.error "failed to determine consensus chain length" := by rfl

/-- C9 counterexample: an unsolicited `UTXOs` response is logged and ignored
by the dispatcher — state unchanged, no reply, and `closed = false`, refuting
the claim that the connection is closed. -/
theorem claim9_unsolicited_counterexample :
    dispatchMessage hfC 0 0 [] stG (Message.UTXOs []) =
      { chain := stG, reply := none, gossip := false, broadcast := none, closed := false } := by
  rfl

/-- C9 amended: on any of the six unsolicited response messages the
dispatcher ignores the message: the chain is unchanged, nothing is sent and
the connection stays open. -/
theorem claim9_unsolicited_amended (hf : HashF) (now : Int) (freshId : Nat)
    (peers : List String) (st : Blockchain) (m : Message)
    (h : m.isUnsolicitedResponse = true) :
    dispatchMessage hf now freshId peers st m =
      { chain := st, reply := none, gossip := false, broadcast := none, closed := false } := by
  cases m <;> first
    | rfl
    | simp [Message.isUnsolicitedResponse] at h

/-- C9 amended, witness at the concrete unsolicited `Difference` message. -/
theorem claim9_unsolicited_amended_witness :
    (Message.Difference 3).isUnsolicitedResponse = true
    ∧ dispatchMessage hfC 0 0 [] stG (Message.Difference 3) =
        { chain := stG, reply := none, gossip := false, broadcast := none, closed := false } :=
  ⟨rfl, claim9_unsolicited_amended hfC 0 0 [] stG (Message.Difference 3) rfl⟩

/-- C10: on an empty chain `add_block` succeeds exactly when the block's
`prev_block_hash` is the zero hash; no proof-of-work, merkle, timestamp or
transaction check is applied, and on success the block is appended through
the common accept path (mempool retain and `try_adjust_target` included). -/
theorem claim10_genesis (hf : HashF) (st : Blockchain) (block : Block)
    (h : st.blocks = []) :
    ((st.addBlock hf block).2 = none ↔ block.header.prev_block_hash = Hash.zero)
    ∧ ((st.addBlock hf block).2 = none →
        (st.addBlock hf block).1 = st.acceptBlock hf block)
    ∧ (block.header.prev_block_hash ≠ Hash.zero →
        st.addBlock hf block = (st, some BtcError.InvalidBlock)) := by
  have hlast : st.blocks.getLast? = none := by simp [h]
  unfold Blockchain.addBlock
  rw [hlast]
  by_cases hp : block.header.prev_block_hash = Hash.zero
  · simp [hp]
  · simp [hp]

/-- C10 witness: the genesis block `B0`, whose header merkle root (12345)
disagrees with the merkle root of its transactions, is nevertheless accepted
on the empty chain. -/
theorem claim10_genesis_witness :
    Blockchain.new.blocks = []
    ∧ hfC.merkleRoot B0.transactions ≠ B0.header.merkle_root
    ∧ (Blockchain.new.addBlock hfC B0).2 = none
    ∧ (Blockchain.new.addBlock hfC B0).1.blocks = [B0] :=
  ⟨rfl, by decide, (claim10_genesis hfC Blockchain.new B0 rfl).1.mpr (by decide), by decide⟩

/-- C2: on a non-empty chain, `add_block` succeeds exactly when (a) the
block's `prev_block_hash` matches the last block's hash, (b) the header hash
meets the header's own target, (c) the header merkle root matches the merkle
root of the transactions, (d) the timestamp strictly exceeds the last
block's, and (e) the transactions verify; a merkle mismatch (with (a), (b)
holding) yields `InvalidMerkleRoot`, the other header checks yield
`InvalidBlock`, and on success the block is appended, mempool transactions
whose hash appears in the block are dropped, and `try_adjust_target` runs
(the accept path). -/
theorem claim2_add_block_checks (hf : HashF) (st : Blockchain) (block : Block)
    (lastBlock : Block) (hlast : st.blocks.getLast? = some lastBlock) :
    ((st.addBlock hf block).2 = none ↔
      (block.header.prev_block_hash = lastBlock.hash hf
        ∧ Hash.matchesTarget (hf.headerHash block.header) block.header.target = true
        ∧ hf.merkleRoot block.transactions = block.header.merkle_root
        ∧ lastBlock.header.timestamp < block.header.timestamp
        ∧ verifyTransactions hf st.blockHeight st.utxos block.transactions = true))
    ∧ ((st.addBlock hf block).2 = some BtcError.InvalidMerkleRoot ↔
      (block.header.prev_block_hash = lastBlock.hash hf
        ∧ Hash.matchesTarget (hf.headerHash block.header) block.header.target = true
        ∧ hf.merkleRoot block.transactions ≠ block.header.merkle_root))
    ∧ ((st.addBlock hf block).2 = some BtcError.InvalidBlock ↔
      (block.header.prev_block_hash ≠ lastBlock.hash hf
        ∨ Hash.matchesTarget (hf.headerHash block.header) block.header.target = false
        ∨ (hf.merkleRoot block.transactions = block.header.merkle_root
            ∧ block.header.timestamp ≤ lastBlock.header.timestamp)))
    ∧ ((st.addBlock hf block).2 = none →
        (st.addBlock hf block).1 = st.acceptBlock hf block) := by
  unfold Blockchain.addBlock
  rw [hlast]
  by_cases ha : block.header.prev_block_hash = lastBlock.hash hf
  · cases hb : Hash.matchesTarget (hf.headerHash block.header) block.header.target
    · simp [ha, hb]
    · by_cases hc : hf.merkleRoot block.transactions = block.header.merkle_root
      · by_cases hd : block.header.timestamp ≤ lastBlock.header.timestamp
        · simp [ha, hb, hc, hd]
          try omega
        · cases he : verifyTransactions hf st.blockHeight st.utxos block.transactions
          · simp [ha, hb, hc, hd, he]
            try omega
          · simp [ha, hb, hc, hd, he]
            try omega
      · simp [ha, hb, hc]
  · simp [ha]

/-- C2 witness: the concrete block `B1` on the one-block chain `stG`
satisfies all five checks under `hfC` and is accepted. -/
theorem claim2_add_block_checks_witness :
    stG.blocks.getLast? = some B0
    ∧ (stG.addBlock hfC B1).2 = none :=
  ⟨by decide, (claim2_add_block_checks hfC stG B1 B0 (by decide)).1.mpr (by decide)⟩

/-- C5: `try_adjust_target` leaves the whole state unchanged unless the
height is a positive exact multiple of `DIFFICULTY_UPDATE_INTERVAL`; at such
heights only the target changes, to the old target scaled by the elapsed
seconds of the last interval over the ideal seconds with integer
truncation, clamped into `[old/4, old·4]` and then capped at `MIN_TARGET`
(the clamp written as a max/min normal form). -/
theorem claim5_retarget (st : Blockchain) :
    (¬ (0 < st.blockHeight ∧ st.blockHeight % DIFFICULTY_UPDATE_INTERVAL = 0) →
        st.tryAdjustTarget = st)
    ∧ (0 < st.blockHeight → st.blockHeight % DIFFICULTY_UPDATE_INTERVAL = 0 →
        st.tryAdjustTarget.target
            = min MIN_TARGET
                (max (st.target / 4)
                  (min (st.target * st.retargetElapsed.toNat
                        / (IDEAL_BLOCK_TIME * DIFFICULTY_UPDATE_INTERVAL))
                    (st.target * 4)))
          ∧ st.tryAdjustTarget.blocks = st.blocks
          ∧ st.tryAdjustTarget.utxos = st.utxos
          ∧ st.tryAdjustTarget.mempool = st.mempool) := by
  have hemp : st.blocks.isEmpty = true ↔ st.blockHeight = 0 := by
    cases h : st.blocks <;> simp [Blockchain.blockHeight, h]
  constructor
  · intro hno
    unfold Blockchain.tryAdjustTarget
    by_cases h0 : st.blocks.isEmpty
    · simp [h0]
    · have hpos : 0 < st.blockHeight := by
        rcases Nat.eq_zero_or_pos st.blockHeight with h | h
        · exact absurd (hemp.mpr h) h0
        · exact h
      have hmod : st.blockHeight % DIFFICULTY_UPDATE_INTERVAL ≠ 0 :=
        fun hm => hno ⟨hpos, hm⟩
      simp [h0, hmod]
  · intro hpos hmod
    have h0 : st.blocks.isEmpty = false := by
      rcases h : st.blocks.isEmpty with _ | _
      · rfl
      · exact absurd (hemp.mp h) (Nat.pos_iff_ne_zero.mp hpos)
    unfold Blockchain.tryAdjustTarget
    rw [Blockchain.retargetElapsed]
    simp only [h0, Bool.false_eq_true, if_false, hmod, ne_eq, not_true_eq_false, if_true]
    refine ⟨?_, trivial, trivial, trivial⟩
    rw [Nat.min_comm]
    congr 1
    generalize st.target * _ / _ = n
    rcases Nat.lt_or_ge n (st.target / 4) with h1 | h1
    · simp only [h1, if_true]
      omega
    · simp only [Nat.not_lt.mpr h1, if_false]
      rcases Nat.lt_or_ge (st.target * 4) n with h2 | h2
      · simp only [h2, if_true]
        omega
      · simp only [Nat.not_lt.mpr h2, if_false]
        omega

/-- C5 witness: on the 50-block chain `stW` with elapsed 490 s against the
ideal 500 s, the retarget fires and the target becomes
`MIN_TARGET · 490 / 500`. -/
theorem claim5_retarget_witness :
    (0 < stW.blockHeight ∧ stW.blockHeight % DIFFICULTY_UPDATE_INTERVAL = 0)
    ∧ stW.tryAdjustTarget.target = MIN_TARGET * 490 / 500 := by
  refine ⟨by decide, ?_⟩
  rw [((claim5_retarget stW).2 (by decide) (by decide)).1]
  decide

/-- If the UTXO referenced by an input is not currently marked,
`conflictStep` does nothing. -/
theorem conflictStep_eq_of_unmarked (hf : HashF) (st : Blockchain) (i : TransactionInput)
    (h : notMarkedIn st.utxos i = true) :
    conflictStep hf st i = st := by
  unfold conflictStep
  unfold notMarkedIn at h
  cases hg : getU st.utxos i.prev_transaction_output_hash with
  | none => rfl
  | some p =>
    rcases p with ⟨b, o⟩
    cases b
    · rfl
    · rw [hg] at h
      simp at h

/-- If none of a transaction's inputs references a marked UTXO, the whole
conflict-resolution loop does nothing. -/
theorem foldl_conflictStep_eq_of_unmarked (hf : HashF) (st : Blockchain)
    (ins : List TransactionInput)
    (h : ∀ i ∈ ins, notMarkedIn st.utxos i = true) :
    ins.foldl (conflictStep hf) st = st := by
  induction ins with
  | nil => rfl
  | cons i rest ih =>
    rw [List.foldl_cons, conflictStep_eq_of_unmarked hf st i (h i (List.mem_cons_self i rest))]
    exact ih fun j hj => h j (List.mem_cons_of_mem i hj)

/-- C6 amended: a rejected `add_to_mempool` call leaves the state unchanged
PROVIDED no input of the rejected transaction references a marked UTXO; in
general the conflict-eviction side effects (unmarking, mempool removal)
performed before the value check persist, see the counterexample. -/
theorem claim6_rollback_amended (hf : HashF) (now : Int) (st : Blockchain)
    (tx : Transaction)
    (herr : (st.addToMempool hf now tx).2.isSome = true)
    (hunmarked : ∀ i ∈ tx.inputs, notMarkedIn st.utxos i = true) :
    (st.addToMempool hf now tx).1 = st := by
  have hfold : tx.inputs.foldl (conflictStep hf) st = st :=
    foldl_conflictStep_eq_of_unmarked hf st tx.inputs hunmarked
  revert herr
  unfold Blockchain.addToMempool
  by_cases hchk : checkInputsAux st.utxos tx.inputs [] = true
  · simp only [hchk, Bool.not_true, Bool.false_eq_true, if_false, hfold]
    intro herr
    by_cases hval : inputsValue st.utxos tx.inputs < outputsValue tx.outputs
    · simp [hval]
    · simp [hval] at herr
  · simp [hchk]

/-- C6 amended, witness: `txMissing` references a nonexistent UTXO, is
rejected against `stU`, none of its inputs references a marked UTXO, and the
state is unchanged. -/
theorem claim6_rollback_amended_witness :
    ((stU.addToMempool hfC 40 txMissing).2.isSome = true
      ∧ (∀ i ∈ txMissing.inputs, notMarkedIn stU.utxos i = true))
    ∧ (stU.addToMempool hfC 40 txMissing).1 = stU :=
  ⟨⟨by decide, by decide⟩,
    claim6_rollback_amended hfC 40 stU txMissing (by decide) (by decide)⟩

/-- A key absent from the key list looks up to `none`. -/
theorem getU_eq_none_of_not_mem_keysU (m : Utxos) (k : Hash) (h : k ∉ keysU m) :
    getU m k = none := by
  induction m with
  | nil => rfl
  | cons e rest ih =>
    simp only [keysU, List.map_cons, List.mem_cons, not_or] at h
    have hne : ¬ e.1 = k := fun he => h.1 he.symm
    simp only [getU, if_neg hne]
    exact ih h.2

/-- Removal never introduces a key. -/
theorem getU_removeU_of_eq_none (m : Utxos) (k q : Hash) (h : getU m k = none) :
    getU (removeU m q) k = none := by
  induction m with
  | nil => rfl
  | cons e rest ih =>
    by_cases he : e.1 = k
    · simp only [getU, if_pos he] at h
      exact absurd h (by simp)
    · simp only [getU, if_neg he] at h
      by_cases hq : e.1 = q
      · simp only [removeU, if_pos hq]
        exact h
      · simp only [removeU, if_neg hq, getU, if_neg he]
        exact ih h

/-- Removing a key from a map with unique keys makes it absent. -/
theorem getU_removeU_self (m : Utxos) (k : Hash) (h : (keysU m).Nodup) :
    getU (removeU m k) k = none := by
  induction m with
  | nil => rfl
  | cons e rest ih =>
    simp only [keysU, List.map_cons, List.nodup_cons] at h
    by_cases hk : e.1 = k
    · simp only [removeU, if_pos hk]
      exact getU_eq_none_of_not_mem_keysU rest k (hk ▸ h.1)
    · simp only [removeU, if_neg hk, getU, if_neg hk]
      exact ih h.2

/-- Removing one key leaves the lookup of another unchanged. -/
theorem getU_removeU_of_ne (m : Utxos) (q k : Hash) (h : q ≠ k) :
    getU (removeU m q) k = getU m k := by
  induction m with
  | nil => rfl
  | cons e rest ih =>
    by_cases hq : e.1 = q
    · have hek : ¬ e.1 = k := by rw [hq]; exact h
      simp only [removeU, if_pos hq, getU, if_neg hek]
    · simp only [removeU, if_neg hq, getU]
      by_cases he : e.1 = k <;> simp [he, ih]

/-- Lookup after insert at the inserted key. -/
theorem getU_insertU_self (m : Utxos) (k : Hash) (v : Bool × TransactionOutput) :
    getU (insertU m k v) k = some v := by
  induction m with
  | nil => simp [insertU, getU]
  | cons e rest ih =>
    by_cases he : e.1 = k
    · simp [insertU, if_pos he, getU]
    · simp only [insertU, if_neg he, getU, if_neg he]
      exact ih

/-- Lookup after insert at a different key. -/
theorem getU_insertU_of_ne (m : Utxos) (q k : Hash) (v : Bool × TransactionOutput)
    (h : q ≠ k) :
    getU (insertU m q v) k = getU m k := by
  induction m with
  | nil => simp [insertU, getU, h]
  | cons e rest ih =>
    by_cases hq : e.1 = q
    · have hek : ¬ e.1 = k := by rw [hq]; exact h
      simp [insertU, hq, getU, h, hek]
    · simp only [insertU, if_neg hq, getU]
      by_cases he : e.1 = k <;> simp [he, ih]

/-- Keys after removal are keys of the original map. -/
theorem mem_keysU_removeU (m : Utxos) (k x : Hash) (h : x ∈ keysU (removeU m k)) :
    x ∈ keysU m := by
  induction m with
  | nil => simpa [removeU] using h
  | cons e rest ih =>
    by_cases hk : e.1 = k
    · simp only [removeU, if_pos hk] at h
      simp only [keysU, List.map_cons, List.mem_cons]
      exact Or.inr (by simpa [keysU] using h)
    · simp only [removeU, if_neg hk, keysU, List.map_cons, List.mem_cons] at h ⊢
      rcases h with h | h
      · exact Or.inl h
      · exact Or.inr (ih (by simpa [keysU] using h))

/-- Keys after insert are among the old keys plus the inserted one. -/
theorem mem_keysU_insertU (m : Utxos) (k : Hash) (v : Bool × TransactionOutput) (x : Hash)
    (h : x ∈ keysU (insertU m k v)) :
    x ∈ keysU m ∨ x = k := by
  induction m with
  | nil => exact Or.inr (by simpa [insertU, keysU] using h)
  | cons e rest ih =>
    by_cases he : e.1 = k
    · simp only [insertU, if_pos he, keysU, List.map_cons, List.mem_cons] at h
      rcases h with h | h
      · exact Or.inr h
      · exact Or.inl (by simp only [keysU, List.map_cons, List.mem_cons]; exact Or.inr h)
    · simp only [insertU, if_neg he, keysU, List.map_cons, List.mem_cons] at h
      rcases h with h | h
      · exact Or.inl (by simp only [keysU, List.map_cons, List.mem_cons]; exact Or.inl h)
      · rcases ih h with h2 | h2
        · exact Or.inl (by
            simp only [keysU, List.map_cons, List.mem_cons]
            exact Or.inr h2)
        · exact Or.inr h2

/-- Removal preserves key uniqueness. -/
theorem nodup_keysU_removeU (m : Utxos) (k : Hash) (h : (keysU m).Nodup) :
    (keysU (removeU m k)).Nodup := by
  induction m with
  | nil => simp [removeU, keysU]
  | cons e rest ih =>
    simp only [keysU, List.map_cons, List.nodup_cons] at h
    by_cases hk : e.1 = k
    · simpa [removeU, hk, keysU] using h.2
    · simp only [removeU, if_neg hk, keysU, List.map_cons, List.nodup_cons]
      exact ⟨fun hm => h.1 (mem_keysU_removeU rest k e.1 (by simpa [keysU] using hm)), ih h.2⟩

/-- Insert preserves key uniqueness. -/
theorem nodup_keysU_insertU (m : Utxos) (k : Hash) (v : Bool × TransactionOutput)
    (h : (keysU m).Nodup) :
    (keysU (insertU m k v)).Nodup := by
  induction m with
  | nil => simp [insertU, keysU]
  | cons e rest ih =>
    simp only [keysU, List.map_cons, List.nodup_cons] at h
    by_cases hk : e.1 = k
    · simp only [insertU, if_pos hk, keysU, List.map_cons, List.nodup_cons]
      exact ⟨hk ▸ h.1, h.2⟩
    · simp only [insertU, if_neg hk, keysU, List.map_cons, List.nodup_cons]
      constructor
      · intro hm
        rcases mem_keysU_insertU rest k v e.1 (by simpa [keysU] using hm) with hm2 | hm2
        · exact h.1 (by simpa [keysU] using hm2)
        · exact hk hm2
      · exact ih h.2

/-- A key absent before the input-removal loop stays absent. -/
theorem getU_removeFold_of_eq_none (L : List TransactionInput) (m : Utxos) (k : Hash)
    (h : getU m k = none) :
    getU (L.foldl (fun a i => removeU a i.prev_transaction_output_hash) m) k = none := by
  induction L generalizing m with
  | nil => exact h
  | cons i rest ih => exact ih _ (getU_removeU_of_eq_none m k _ h)

/-- The input-removal loop preserves key uniqueness. -/
theorem nodup_keysU_removeFold (L : List TransactionInput) (m : Utxos)
    (h : (keysU m).Nodup) :
    (keysU (L.foldl (fun a i => removeU a i.prev_transaction_output_hash) m)).Nodup := by
  induction L generalizing m with
  | nil => exact h
  | cons i rest ih => exact ih _ (nodup_keysU_removeU m _ h)

/-- A key referenced by one of the inputs is absent after the removal loop
(on a map with unique keys). -/
theorem getU_removeFold_of_mem (L : List TransactionInput) (m : Utxos) (k : Hash)
    (hnod : (keysU m).Nodup)
    (hk : k ∈ L.map (fun i => i.prev_transaction_output_hash)) :
    getU (L.foldl (fun a i => removeU a i.prev_transaction_output_hash) m) k = none := by
  induction L generalizing m with
  | nil => simp at hk
  | cons i rest ih =>
    simp only [List.map_cons, List.mem_cons] at hk
    rw [List.foldl_cons]
    rcases hk with hk | hk
    · refine getU_removeFold_of_eq_none rest _ k ?_
      rw [hk]
      exact getU_removeU_self m _ hnod
    · exact ih _ (nodup_keysU_removeU m _ hnod) hk

/-- A key not referenced by the inputs is untouched by the removal loop. -/
theorem getU_removeFold_of_not_mem (L : List TransactionInput) (m : Utxos) (k : Hash)
    (hk : k ∉ L.map (fun i => i.prev_transaction_output_hash)) :
    getU (L.foldl (fun a i => removeU a i.prev_transaction_output_hash) m) k = getU m k := by
  induction L generalizing m with
  | nil => rfl
  | cons i rest ih =>
    simp only [List.map_cons, List.mem_cons, not_or] at hk
    rw [List.foldl_cons, ih _ hk.2, getU_removeU_of_ne m _ k (fun he => hk.1 he.symm)]

/-- The output-insertion loop leaves other keys unchanged. -/
theorem getU_insertFold_of_ne (os : List TransactionOutput) (m : Utxos) (q k : Hash)
    (h : q ≠ k) :
    getU (os.foldl (fun a o => insertU a q (false, o)) m) k = getU m k := by
  induction os generalizing m with
  | nil => rfl
  | cons o rest ih => rw [List.foldl_cons, ih _, getU_insertU_of_ne m q k _ h]

/-- The output-insertion loop preserves key uniqueness. -/
theorem nodup_keysU_insertFold (os : List TransactionOutput) (m : Utxos) (q : Hash)
    (h : (keysU m).Nodup) :
    (keysU (os.foldl (fun a o => insertU a q (false, o)) m)).Nodup := by
  induction os generalizing m with
  | nil => exact h
  | cons o rest ih => exact ih _ (nodup_keysU_insertU m q _ h)

/-- Inserting a nonempty output list under one key leaves the LAST output
under that key: each insert overwrites the previous one. -/
theorem getU_insertFold_last (o : TransactionOutput) (os : List TransactionOutput)
    (m : Utxos) (q : Hash) :
    getU ((o :: os).foldl (fun a x => insertU a q (false, x)) m) q
      = some (false, os.getLastD o) := by
  induction os generalizing m o with
  | nil => simp [getU_insertU_self]
  | cons o2 rest ih =>
    rw [List.foldl_cons]
    have h := ih o2 (insertU m q (false, o))
    rw [List.getLastD_cons]
    exact h

/-- A transaction step keeps an absent key absent, provided the transaction
does not itself insert under that key. -/
theorem getU_processTx_stays_none (hf : HashF) (m : Utxos) (tx : Transaction) (k : Hash)
    (h : getU m k = none) (hout : hf.txHash tx = k → tx.outputs = []) :
    getU (processTxUtxos hf m tx) k = none := by
  simp only [processTxUtxos]
  have h1 := getU_removeFold_of_eq_none tx.inputs m k h
  by_cases hq : hf.txHash tx = k
  · rw [hout hq]
    exact h1
  · rw [getU_insertFold_of_ne _ _ _ _ hq]
    exact h1

/-- A transaction step removes every key its inputs reference, provided the
transaction does not itself insert under that key. -/
theorem getU_processTx_removes (hf : HashF) (m : Utxos) (tx : Transaction) (k : Hash)
    (hnod : (keysU m).Nodup) (hk : k ∈ inputKeys tx)
    (hout : hf.txHash tx = k → tx.outputs = []) :
    getU (processTxUtxos hf m tx) k = none := by
  simp only [processTxUtxos]
  have h1 := getU_removeFold_of_mem tx.inputs m k hnod hk
  by_cases hq : hf.txHash tx = k
  · rw [hout hq]
    exact h1
  · rw [getU_insertFold_of_ne _ _ _ _ hq]
    exact h1

/-- A transaction step does not affect keys it neither references nor
inserts under. -/
theorem getU_processTx_of_ne (hf : HashF) (m : Utxos) (tx : Transaction) (k : Hash)
    (h1 : hf.txHash tx ≠ k) (h2 : k ∉ inputKeys tx) :
    getU (processTxUtxos hf m tx) k = getU m k := by
  simp only [processTxUtxos]
  rw [getU_insertFold_of_ne _ _ _ _ h1, getU_removeFold_of_not_mem _ _ _ h2]

/-- After a transaction step, the transaction's hash maps to its last output. -/
theorem getU_processTx_last (hf : HashF) (m : Utxos) (tx : Transaction)
    (o : TransactionOutput) (os : List TransactionOutput) (hos : tx.outputs = o :: os) :
    getU (processTxUtxos hf m tx) (hf.txHash tx) = some (false, os.getLastD o) := by
  simp only [processTxUtxos]
  rw [hos]
  exact getU_insertFold_last o os _ _

/-- A transaction step preserves key uniqueness. -/
theorem nodup_keysU_processTx (hf : HashF) (m : Utxos) (tx : Transaction)
    (h : (keysU m).Nodup) :
    (keysU (processTxUtxos hf m tx)).Nodup := by
  simp only [processTxUtxos]
  exact nodup_keysU_insertFold _ _ _ (nodup_keysU_removeFold _ _ h)

/-- Replaying transactions keeps an absent key absent, provided none of them
inserts under it with a nonempty output list. -/
theorem getU_txFold_stays_none (hf : HashF) (L : List Transaction) (m : Utxos) (k : Hash)
    (h0 : getU m k = none)
    (hL : ∀ tx ∈ L, hf.txHash tx = k → tx.outputs = []) :
    getU (L.foldl (processTxUtxos hf) m) k = none := by
  induction L generalizing m with
  | nil => exact h0
  | cons tx rest ih =>
    rw [List.foldl_cons]
    exact ih _
      (getU_processTx_stays_none hf m tx k h0 (hL tx (List.mem_cons_self tx rest)))
      (fun tx2 h2 => hL tx2 (List.mem_cons_of_mem tx h2))

/-- Replaying transactions that neither reference nor share a key leaves its
lookup unchanged. -/
theorem getU_txFold_of_all_ne (hf : HashF) (L : List Transaction) (m : Utxos) (k : Hash)
    (hL : ∀ tx ∈ L, hf.txHash tx ≠ k ∧ k ∉ inputKeys tx) :
    getU (L.foldl (processTxUtxos hf) m) k = getU m k := by
  induction L generalizing m with
  | nil => rfl
  | cons tx rest ih =>
    rw [List.foldl_cons, ih _ (fun tx2 h2 => hL tx2 (List.mem_cons_of_mem tx h2))]
    have h := hL tx (List.mem_cons_self tx rest)
    exact getU_processTx_of_ne hf m tx k h.1 h.2

/-- Replaying transactions preserves key uniqueness. -/
theorem nodup_keysU_txFold (hf : HashF) (L : List Transaction) (m : Utxos)
    (h : (keysU m).Nodup) :
    (keysU (L.foldl (processTxUtxos hf) m)).Nodup := by
  induction L generalizing m with
  | nil => exact h
  | cons tx rest ih => exact ih _ (nodup_keysU_processTx hf m tx h)

/-- The nested block/transaction fold of `rebuild_utxos` equals the fold
over the flattened committed-transaction list. -/
theorem blocksFold_eq_txsFold (hf : HashF) (bs : List Block) (m : Utxos) :
    bs.foldl (fun a b => b.transactions.foldl (processTxUtxos hf) a) m
      = (bs.foldr (fun b acc => b.transactions ++ acc) []).foldl (processTxUtxos hf) m := by
  induction bs generalizing m with
  | nil => rfl
  | cons b rest ih =>
    rw [List.foldl_cons, ih, List.foldr_cons, List.foldl_append]

/-- `rebuild_utxos` as a fold over the committed transactions. -/
theorem rebuildUtxos_utxos_eq (hf : HashF) (st : Blockchain) :
    (st.rebuildUtxos hf).utxos = st.committedTxs.foldl (processTxUtxos hf) st.utxos := by
  simp only [Blockchain.rebuildUtxos, Blockchain.committedTxs]
  exact blocksFold_eq_txsFold hf st.blocks st.utxos

/-- C3 amended: after `rebuild_utxos`, (absence) the key referenced by any
input of a committed transaction is absent from `utxos`, provided no
committed transaction at or after it hashes to that key with a nonempty
output list; and (presence) for every committed transaction with a nonempty
output list, its LAST output — not every output — is retrievable under the
transaction's hash, provided no later committed transaction shares that
hash or spends it.  Outputs are keyed by the OWNING TRANSACTION's hash, so
earlier outputs of a multi-output transaction are overwritten (see the
counterexample). -/
theorem claim3_rebuild_amended (hf : HashF) (st : Blockchain)
    (hnod : (keysU st.utxos).Nodup) :
    (∀ l1 tx l2, st.committedTxs = l1 ++ tx :: l2 →
        ∀ inp ∈ tx.inputs,
          (∀ tx2 ∈ tx :: l2,
              hf.txHash tx2 = inp.prev_transaction_output_hash → tx2.outputs = []) →
          getU (st.rebuildUtxos hf).utxos inp.prev_transaction_output_hash = none)
    ∧ (∀ l1 tx l2, st.committedTxs = l1 ++ tx :: l2 →
        ∀ o os, tx.outputs = o :: os →
          (∀ tx2 ∈ l2, hf.txHash tx2 ≠ hf.txHash tx) →
          (∀ tx2 ∈ l2, hf.txHash tx ∉ inputKeys tx2) →
          getU (st.rebuildUtxos hf).utxos (hf.txHash tx) = some (false, os.getLastD o)) := by
  constructor
  · intro l1 tx l2 hsplit inp hinp hcl
    rw [rebuildUtxos_utxos_eq, hsplit, List.foldl_append, List.foldl_cons]
    have hnod1 : (keysU (l1.foldl (processTxUtxos hf) st.utxos)).Nodup :=
      nodup_keysU_txFold hf l1 st.utxos hnod
    exact getU_txFold_stays_none hf l2 _ _
      (getU_processTx_removes hf _ tx _ hnod1
        (List.mem_map_of_mem (fun i => i.prev_transaction_output_hash) hinp)
        (hcl tx (List.mem_cons_self tx l2)))
      (fun tx2 h2 => hcl tx2 (List.mem_cons_of_mem tx h2))
  · intro l1 tx l2 hsplit o os hos hne hnin
    rw [rebuildUtxos_utxos_eq, hsplit, List.foldl_append, List.foldl_cons]
    rw [getU_txFold_of_all_ne hf l2 _ _ (fun tx2 h2 => ⟨hne tx2 h2, hnin tx2 h2⟩)]
    exact getU_processTx_last hf _ tx o os hos

/-- C3 amended, witness: on the one-block chain `stC3` the committed
transaction `t2o` has outputs `[oA3, oB3]` and its hash retrieves the last
output `oB3`. -/
theorem claim3_rebuild_amended_witness :
    ((keysU stC3.utxos).Nodup ∧ stC3.committedTxs = [] ++ t2o :: []
      ∧ t2o.outputs = oA3 :: [oB3])
    ∧ getU (stC3.rebuildUtxos hfC).utxos (hfC.txHash t2o) = some (false, oB3) :=
  ⟨⟨by decide, by decide, by decide⟩, by
    have h := (claim3_rebuild_amended hfC stC3 (by decide)).2 [] t2o []
      (by decide) oA3 [oB3] (by decide) (by simp) (by simp)
    simpa using h⟩

/-- C3 counterexample: after rebuilding the one-block chain holding the
two-output transaction `t2o`, the `utxos` map holds a single entry carrying
only the second output; the unspent committed output `oA3` is not
retrievable at all, refuting the claim that every unspent committed output
is in the map under its key. -/
theorem claim3_rebuild_counterexample :
    (stC3.rebuildUtxos hfC).utxos = [(520, (false, oB3))]
    ∧ stC3.committedTxs = [t2o]
    ∧ t2o.inputs = []
    ∧ oA3 ∈ t2o.outputs
    ∧ oA3 ∉ ((stC3.rebuildUtxos hfC).utxos.map (fun e => e.2.2))
    ∧ oA3 ≠ oB3 := by decide

end Grapheno
